import Mathlib

/-!
# DrJosh9000/lcd : GPIO drivers for two LCD modules

A shallow embedding of `rs257543.go` (the RS 257-543 four-digit segment module,
loaded through a 32-bit shift register) and `qp5515.go` (the QP-5515 HD44780-class
character module on an 8-bit parallel bus).

Conventions of the embedding:

* a Go `string` ranged over with `for _, r := range s` is the list of its runes,
  `List Char`;
* `uint8` and `uint32` are `Nat` with an explicit `% 256` and `% 2 ^ 32` wherever the Go
  operation can wrap;
* a driver method that only talks to pins is the list of pin events it performs, in
  program order; waits on a ticker and sleeps are events of that list too;
* levels are `Bool` (`gpio.High = true`, `gpio.Low = false`).
-/

namespace LCD

/-! ## Pin events -/

/-- One observable step of a driver: a `gpio.PinIO` call or a timing wait. -/
inductive Event (P : Type) where
  /-- `p.Out(level)` -/
  | out (p : P) (level : Bool)
  /-- `p.In(gpio.PullNoChange, gpio.NoEdge)` -/
  | inp (p : P)
  /-- `p.Read()` returning `level` -/
  | read (p : P) (level : Bool)
  /-- `<-t.C` on the ticker of the enclosing method -/
  | tick
  /-- `time.Sleep(ns * time.Nanosecond)` -/
  | sleep (ns : Nat)
  deriving DecidableEq, Repr

/-- The pin operations of a trace: everything except the timing waits. -/
def pinOps {P : Type} (tr : List (Event P)) : List (Event P) :=
  tr.filter fun e =>
    match e with
    | .tick => false
    | .sleep _ => false
    | _ => true

/-! ## `rs257543.go` -/

/-- Go `map[rune]uint8`, as an association list; the first entry of a key is the entry. -/
abbrev RuneMap := List (Char × Nat)

/-- `runes[r]` on a `map[rune]uint8`: the entry as a `uint8`, the zero value when absent. -/
def RuneMap.at (m : RuneMap) (c : Char) : Nat :=
  ((m.lookup c).getD 0) % 256

/-- `defaultRuneMap`: the basic translation from hex digits into segments (`GFABCDE.`). -/
def defaultRuneMap : RuneMap :=
  [ (' ', 0b00000000),
    ('-', 0b10000000),
    ('_', 0b00000100),
    ('0', 0b01111110),
    ('1', 0b00011000),
    ('2', 0b10110110),
    ('3', 0b10111100),
    ('4', 0b11011000),
    ('5', 0b11101100),
    ('6', 0b11101110),
    ('7', 0b00111000),
    ('8', 0b11111110),
    ('9', 0b11111100),
    ('A', 0b11111010),
    ('B', 0b11001110),
    ('C', 0b01100110),
    ('D', 0b10011110),
    ('E', 0b11100110),
    ('F', 0b11100010) ]

/-- The pins of the RS 257-543 driver. -/
inductive SegPin where
  | LD | CLK | DIN | DEG | COL | CUR
  deriving DecidableEq, Repr

/-- `type RS257543 struct`: `LD`, `CLK`, `DIN` are required and always wired; `DEG`, `COL`,
`CUR` are optional (`true` = non-nil); `RuneMap` is optional (`none` = nil). -/
structure RS257543 where
  DEG : Bool
  COL : Bool
  CUR : Bool
  RuneMap : Option RuneMap
  deriving DecidableEq, Repr

namespace RS257543

/-- The table `toBits` reads: `r.RuneMap`, or `defaultRuneMap` when it is nil. -/
def runes (r : RS257543) : LCD.RuneMap :=
  match r.RuneMap with
  | none => defaultRuneMap
  | some m => m

/-- One iteration of the `range s` loop of `toBits` on the loop state `(x, rp)`. -/
def toBitsStep (runes : LCD.RuneMap) (st : Nat × Bool) (c : Char) : Nat × Bool :=
  if c = '.' then
    (st.1, true)
  else
    let x := (st.1 <<< 8) % 2 ^ 32
    let x := (x + runes.at c) % 2 ^ 32
    if st.2 then ((x + 1) % 2 ^ 32, false) else (x, st.2)

/-- `func (r *RS257543) toBits(s string) uint32`. -/
def toBits (r : RS257543) (s : List Char) : Nat :=
  (s.foldl (toBitsStep r.runes) (0, false)).1

/-- The loop of `RawDisplay`, with `n` iterations left and `bits` the shifted value. -/
def rawDisplayLoop : Nat → Nat → List (Event SegPin)
  | 0, _ => []
  | n + 1, bits =>
    [.out .DIN (bits &&& 1 == 1), .out .CLK true, .tick, .out .CLK false, .tick]
      ++ rawDisplayLoop n (bits >>> 1)

/-- `func (r *RS257543) RawDisplay(bits uint32)`. -/
def RawDisplay (_r : RS257543) (bits : Nat) : List (Event SegPin) :=
  rawDisplayLoop 32 bits ++ [.out .LD true, .tick, .out .LD false]

/-- `func (r *RS257543) Clear()`. -/
def Clear (r : RS257543) : List (Event SegPin) :=
  r.RawDisplay 0
    ++ (if r.CUR then [.out .CUR false] else [])
    ++ (if r.COL then [.out .COL false] else [])
    ++ (if r.DEG then [.out .DEG false] else [])

/-- `func (r *RS257543) Display(s string)`. -/
def Display (r : RS257543) (s : List Char) : List (Event SegPin) :=
  r.RawDisplay (r.toBits s)

/-- The string `hex` of `CycleDigits`; it is ASCII, so its bytes are its runes. -/
def hex : List Char :=
  ['0', '1', '2', '3', '4', '5', '6', '7', '8', '9', 'A', 'B', 'C', 'D', 'E', 'F', '0', '1', '2']

end RS257543

/-! ## `qp5515.go` -/

/-- The pins of the QP-5515 driver: register select, read/write, enable, data bits 0 - 7. -/
inductive BusPin where
  | RS | RW | E
  | DB (i : Nat)
  deriving DecidableEq, Repr

namespace QP5515

/-- `func (q *QP5515) rawReadData() uint8`, where `db i` is the level `q.DB[i].Read()`
returns during this cycle. The result is the pin trace and the byte read. -/
def rawReadData (db : Nat → Bool) : List (Event BusPin) × Nat :=
  let ins : List (Event BusPin) := (List.range 8).map fun i => .inp (.DB i)
  let rd : List (Event BusPin) × Nat :=
    (List.range 8).foldl
      (fun st i =>
        (st.1 ++ [.read (.DB i) (db i)],
         if !db i then st.2 else (st.2 + (1 <<< i) % 256) % 256))
      ([], 0)
  (ins ++ [.out .RW true, .sleep 250, .out .E true, .sleep 250]
      ++ rd.1 ++ [.out .E false, .sleep 500],
   rd.2)

/-- `func (q *QP5515) rawWriteData(b uint8)`. -/
def rawWriteData (b : Nat) : List (Event BusPin) :=
  ((List.range 8).map fun i => .out (.DB i) false)
    ++ [.out .RW false, .sleep 250, .out .E true, .sleep 250]
    ++ ((List.range 8).map fun i => .out (.DB i) (b &&& ((1 <<< i) % 256) != 0))
    ++ [.out .E false, .sleep 500]

/-- `func (q *QP5515) ReadBFAC() uint8`. -/
def ReadBFAC (db : Nat → Bool) : List (Event BusPin) × Nat :=
  (.out .RS false :: (rawReadData db).1, (rawReadData db).2)

/-- `func (q *QP5515) ReadData() uint8`. -/
def ReadData (db : Nat → Bool) : List (Event BusPin) × Nat :=
  (.out .RS true :: (rawReadData db).1, (rawReadData db).2)

/-- `func (q *QP5515) RawFunction(a uint8)`. -/
def RawFunction (a : Nat) : List (Event BusPin) :=
  .out .RS false :: rawWriteData a

/-- `func (q *QP5515) WriteData(b uint8)`. -/
def WriteData (b : Nat) : List (Event BusPin) :=
  .out .RS true :: rawWriteData b

/-- `func (q *QP5515) Clear()`. -/
def Clear : List (Event BusPin) :=
  RawFunction 0b00000001

/-- `func (q *QP5515) ReturnHome()`. -/
def ReturnHome : List (Event BusPin) :=
  RawFunction 0b00000010

/-- `func (q *QP5515) SetEntryMode(increment, shift bool)`. -/
def SetEntryMode (increment shift : Bool) : List (Event BusPin) :=
  let a := 0b00000100
  let a := if increment then (a + 0b00000010) % 256 else a
  let a := if shift then (a + 0b00000001) % 256 else a
  RawFunction a

/-- `func (q *QP5515) SetDisplayMode(display, cursor, blink bool)`. -/
def SetDisplayMode (display cursor blink : Bool) : List (Event BusPin) :=
  let a := 0b00001000
  let a := if display then (a + 0b00000100) % 256 else a
  let a := if cursor then (a + 0b00000010) % 256 else a
  let a := if blink then (a + 0b00000001) % 256 else a
  RawFunction a

/-- `func (q *QP5515) SetDisplayShiftOrCursorMove(shift, right bool)`. -/
def SetDisplayShiftOrCursorMove (shift right : Bool) : List (Event BusPin) :=
  let a := 0b00010000
  let a := if shift then (a + 0b00001000) % 256 else a
  let a := if right then (a + 0b00000100) % 256 else a
  RawFunction a

/-- `func (q *QP5515) SetFunction(eightbit, twolines, largefont bool)`. -/
def SetFunction (eightbit twolines largefont : Bool) : List (Event BusPin) :=
  let a := 0b00100000
  let a := if eightbit then (a + 0b00010000) % 256 else a
  let a := if twolines then (a + 0b00001000) % 256 else a
  let a := if largefont then (a + 0b00000100) % 256 else a
  RawFunction a

/-- `func (q *QP5515) SetCGAddress(a uint8)`. -/
def SetCGAddress (a : Nat) : List (Event BusPin) :=
  let a := (a + 0b01000000) % 256
  RawFunction a

/-- `func (q *QP5515) SetDDAddress(a uint8)`. -/
def SetDDAddress (a : Nat) : List (Event BusPin) :=
  let a := (a + 0b10000000) % 256
  RawFunction a

/-- The ticker loop of `BusyWait`. `bus n i` is the level of `DB[i]` during the `n`-th raw
read cycle performed on the module, `k` the number of read cycles performed so far, and
`fuel` bounds the number of iterations. The result is the pin trace and the number of read
cycles performed once the loop has returned; `none` when the fuel runs out first. -/
def busyWaitLoop (bus : Nat → Nat → Bool) : Nat → Nat → Option (List (Event BusPin) × Nat)
  | 0, _ => none
  | fuel + 1, k =>
    let bfac := ReadBFAC (bus k)
    if bfac.2 &&& 0b10000000 = 0 then
      some (.tick :: bfac.1, k + 1)
    else
      (busyWaitLoop bus fuel (k + 1)).map fun r => (.tick :: bfac.1 ++ r.1, r.2)

/-- `func (q *QP5515) BusyWait()`: one check at once, then the ticker loop. -/
def BusyWait (bus : Nat → Nat → Bool) (fuel k : Nat) : Option (List (Event BusPin) × Nat) :=
  let bfac := ReadBFAC (bus k)
  if bfac.2 &&& 0b10000000 = 0 then
    some (bfac.1, k + 1)
  else
    (busyWaitLoop bus fuel (k + 1)).map fun r => (bfac.1 ++ r.1, r.2)

/-- `func (q *QP5515) Display(s string)`; `uint8(r)` keeps the low 8 bits of the rune. -/
def Display (bus : Nat → Nat → Bool) (fuel : Nat) :
    List Char → Nat → Option (List (Event BusPin) × Nat)
  | [], k => some ([], k)
  | r :: rs, k =>
    match BusyWait bus fuel k with
    | none => none
    | some w =>
      match Display bus fuel rs w.2 with
      | none => none
      | some d => some (w.1 ++ WriteData (r.toNat % 256) ++ d.1, d.2)

end QP5515

/-- The pin an event touches, if any. -/
def Event.pin {P : Type} : Event P → Option P
  | .out p _ => some p
  | .inp p => some p
  | .read p _ => some p
  | .tick => none
  | .sleep _ => none

/-- A driver with no optional pin and the given table. -/
def bare (m : Option RuneMap) : RS257543 :=
  { DEG := false, COL := false, CUR := false, RuneMap := m }

/-! ## Specification vocabulary

Definitions used to state the properties; none of them is part of the drivers. -/

/-- Number of characters of a text that take a digit slot: those other than `.`. -/
def slotCount (s : List Char) : Nat :=
  (s.filter fun c => c != '.').length

/-- The loop body of `toBits` on an unbounded accumulator. -/
def accStep (runes : RuneMap) (st : Nat × Bool) (c : Char) : Nat × Bool :=
  if c = '.' then (st.1, true)
  else (st.1 * 256 + runes.at c + (if st.2 then 1 else 0), false)

/-- The accumulation of `toBits` over unbounded naturals, from the state `st`. -/
def accFrom (runes : RuneMap) (st : Nat × Bool) (s : List Char) : Nat × Bool :=
  s.foldl (accStep runes) st

/-- A bus transaction drives `RS` to `level` as its first operation and never touches `RS`
again. -/
def drivesRSFirstOnly (level : Bool) (tr : List (Event BusPin)) : Prop :=
  tr.head? = some (.out .RS level) ∧ ∀ e ∈ tr.tail, e.pin ≠ some BusPin.RS

/-- A module that shows the busy flag (the level of `DB[7]`) during its first two read
cycles and is ready from the third on; the other data pins read low. -/
def busyTwice : Nat → Nat → Bool :=
  fun n i => decide (n < 2) && decide (i = 7)

/-- The traces of the polls `s, s + 1, ..., s + k` of `BusyWait`: the first at once, each
later one after a tick of the 40µs ticker. -/
def pollTrace (bus : Nat → Nat → Bool) (s k : Nat) : List (Event BusPin) :=
  (QP5515.ReadBFAC (bus s)).1
    ++ (List.range k).flatMap fun j => .tick :: (QP5515.ReadBFAC (bus (s + 1 + j))).1

/-- A trace that, for each byte of `bytes` in order, polls the busy flag (`polls[i]` polls
after the first one) and then writes the byte as data. `k` is the number of read cycles
performed before. -/
def displayTrace (bus : Nat → Nat → Bool) : Nat → List Nat → List Nat → List (Event BusPin)
  | k, b :: bs, p :: ps =>
    pollTrace bus k p ++ QP5515.WriteData b ++ displayTrace bus (k + p + 1) bs ps
  | _, _, _ => []

/-- The list `polls` describes consecutive `BusyWait` calls from read cycle `k` on, each
starting where the previous one stopped: the call makes `polls[i]` polls after its first one,
every poll before its last shows the busy flag (bit 7) set, its last poll shows it clear, and
`BusyWait` returns with exactly the trace of these polls. -/
def busyWaitPolls (bus : Nat → Nat → Bool) (fuel : Nat) : Nat → List Nat → Prop
  | _, [] => True
  | k, p :: ps =>
    (∀ j, j < p → (QP5515.ReadBFAC (bus (k + j))).2 &&& 0b10000000 ≠ 0)
      ∧ (QP5515.ReadBFAC (bus (k + p))).2 &&& 0b10000000 = 0
      ∧ QP5515.BusyWait bus fuel k = some (pollTrace bus k p, k + p + 1)
      ∧ busyWaitPolls bus fuel (k + p + 1) ps

/-- The level a trace leaves a pin at: that of the last `Out` on it, if there is one. -/
def levelAfter (p : BusPin) (tr : List (Event BusPin)) : Option Bool :=
  tr.foldl
    (fun lv e =>
      match e with
      | .out q l => if q = p then some l else lv
      | _ => lv)
    none

/-- The number whose bit `i` is set exactly for the `i < n` with `db i` high. -/
def bitSum (db : Nat → Bool) (n : Nat) : Nat :=
  ((List.range n).map fun i => if db i then 2 ^ i else 0).sum

theorem RuneMap.at_lt (m : RuneMap) (c : Char) : m.at c < 256 :=
  Nat.mod_lt _ (by norm_num)

theorem slotCount_nil : slotCount [] = 0 := rfl

theorem slotCount_cons_dot (cs : List Char) : slotCount ('.' :: cs) = slotCount cs := by
  simp [slotCount]

theorem slotCount_cons_of_ne {c : Char} (hc : c ≠ '.') (cs : List Char) :
    slotCount (c :: cs) = slotCount cs + 1 := by
  simp [slotCount, hc]

theorem slotCount_append (s t : List Char) : slotCount (s ++ t) = slotCount s + slotCount t := by
  simp [slotCount]

theorem slotCount_of_no_dot {s : List Char} (h : ∀ c ∈ s, c ≠ '.') : slotCount s = s.length := by
  unfold slotCount
  rw [List.filter_eq_self.mpr]
  intro c hc
  simpa using h c hc

theorem toBitsStep_mod (runes : RuneMap) (x : Nat) (rp : Bool) (c : Char) :
    RS257543.toBitsStep runes (x % 2 ^ 32, rp) c
      = ((accStep runes (x, rp) c).1 % 2 ^ 32, (accStep runes (x, rp) c).2) := by
  unfold RS257543.toBitsStep accStep
  by_cases hc : c = '.'
  · simp [hc]
  · cases rp <;> simp [hc, Nat.shiftLeft_eq]

/-- The 32-bit loop of `toBits` is the unbounded accumulation reduced modulo `2 ^ 32`. -/
theorem foldl_toBitsStep_mod (runes : RuneMap) (s : List Char) (x : Nat) (rp : Bool) :
    s.foldl (RS257543.toBitsStep runes) (x % 2 ^ 32, rp)
      = ((accFrom runes (x, rp) s).1 % 2 ^ 32, (accFrom runes (x, rp) s).2) := by
  induction s generalizing x rp with
  | nil => rfl
  | cons c cs ih =>
    simp only [List.foldl_cons, accFrom]
    rw [toBitsStep_mod, ih]
    rfl

theorem toBits_eq_acc_mod (r : RS257543) (s : List Char) :
    r.toBits s = (accFrom r.runes (0, false) s).1 % 2 ^ 32 := by
  have h := foldl_toBitsStep_mod r.runes s 0 false
  simp only [Nat.zero_mod] at h
  simp [RS257543.toBits, h]

theorem accFrom_nil (runes : RuneMap) (st : Nat × Bool) : accFrom runes st [] = st := rfl

theorem accFrom_cons (runes : RuneMap) (st : Nat × Bool) (c : Char) (cs : List Char) :
    accFrom runes st (c :: cs) = accFrom runes (accStep runes st c) cs := rfl

theorem accFrom_append (runes : RuneMap) (st : Nat × Bool) (s t : List Char) :
    accFrom runes st (s ++ t) = accFrom runes (accFrom runes st s) t := by
  simp [accFrom, List.foldl_append]

/-- The accumulator is shifted by one byte per slot; what is added does not depend on it. -/
theorem accFrom_linear (runes : RuneMap) (s : List Char) (x : Nat) (rp : Bool) :
    accFrom runes (x, rp) s
      = (x * 256 ^ slotCount s + (accFrom runes (0, rp) s).1, (accFrom runes (0, rp) s).2) := by
  induction s generalizing x rp with
  | nil => simp [accFrom_nil, slotCount_nil]
  | cons c cs ih =>
    by_cases hc : c = '.'
    · subst hc
      simp only [accFrom_cons, accStep, if_true, slotCount_cons_dot]
      rw [ih x true]
    · simp only [accFrom_cons, accStep, if_neg hc, slotCount_cons_of_ne hc]
      rw [ih (x * 256 + runes.at c + _) false, ih (0 * 256 + runes.at c + _) false]
      simp only [Prod.mk.injEq, and_true]
      ring

/-- The pending flag after a text: set exactly when the text ends in `.`. -/
theorem accFrom_flag (runes : RuneMap) (s : List Char) (st : Nat × Bool) :
    (accFrom runes st s).2
      = match s.getLast? with
        | none => st.2
        | some c => decide (c = '.') := by
  induction s generalizing st with
  | nil => rfl
  | cons c cs ih =>
    rw [accFrom_cons, ih]
    cases cs with
    | nil =>
      by_cases hc : c = '.' <;> simp [accStep, hc]
    | cons d ds =>
      rw [List.getLast?_cons_cons, List.getLast?_eq_getLast _ (List.cons_ne_nil d ds)]

/-- With every pattern even, each slot holds less than 256: the accumulation fits its slots. -/
theorem accFrom_lt (runes : RuneMap) (heven : ∀ c, runes.at c % 2 = 0) (s : List Char) (rp : Bool) :
    (accFrom runes (0, rp) s).1 < 256 ^ slotCount s := by
  induction s generalizing rp with
  | nil => simp [accFrom_nil, slotCount_nil]
  | cons c cs ih =>
    by_cases hc : c = '.'
    · subst hc
      simp only [accFrom_cons, accStep, if_true, slotCount_cons_dot]
      exact ih true
    · simp only [accFrom_cons, accStep, if_neg hc, slotCount_cons_of_ne hc]
      rw [accFrom_linear]
      have h1 := ih false
      have h2 := runes.at_lt c
      have h3 := heven c
      have h4 : 0 * 256 + runes.at c + (if rp = true then 1 else 0) ≤ 255 := by
        split <;> omega
      calc _ < (0 * 256 + runes.at c + (if rp = true then 1 else 0)) * 256 ^ slotCount cs
                + 256 ^ slotCount cs := by simpa using h1
        _ ≤ 255 * 256 ^ slotCount cs + 256 ^ slotCount cs := by
            have := Nat.mul_le_mul_right (256 ^ slotCount cs) h4
            omega
        _ = 256 ^ (slotCount cs + 1) := by ring

/-- A table whose entries are all even (as `uint8`) yields only even patterns. -/
theorem RuneMap.at_even_of_entries (m : RuneMap) (h : ∀ p ∈ m, p.2 % 256 % 2 = 0) (c : Char) :
    m.at c % 2 = 0 := by
  induction m with
  | nil => rfl
  | cons p ps ih =>
    have hp := h p (List.mem_cons_self _ _)
    have hps := ih fun q hq => h q (List.mem_cons_of_mem _ hq)
    obtain ⟨k, v⟩ := p
    unfold RuneMap.at at hps ⊢
    by_cases hk : c == k
    · simpa [List.lookup, hk] using hp
    · simpa [List.lookup, hk] using hps

theorem defaultRuneMap_even (c : Char) : defaultRuneMap.at c % 2 = 0 :=
  RuneMap.at_even_of_entries defaultRuneMap (by decide) c

theorem weighted_sum_cons (runes : RuneMap) (c : Char) (cs : List Char) :
    ∑ i : Fin (c :: cs).length,
        runes.at ((c :: cs).get i) * 256 ^ ((c :: cs).length - 1 - i.val)
      = runes.at c * 256 ^ cs.length
          + ∑ i : Fin cs.length, runes.at (cs.get i) * 256 ^ (cs.length - 1 - i.val) := by
  refine (Fin.sum_univ_succ _).trans ?_
  congr 1
  apply Finset.sum_congr rfl
  intro i _
  show runes.at (cs.get i) * 256 ^ (cs.length + 1 - 1 - (i.val + 1)) = _
  congr 2
  omega

/-- Without `.` nothing is ever pending: the accumulation is the base-256 weighted sum. -/
theorem accFrom_no_dot (runes : RuneMap) (s : List Char) (hdot : ∀ c ∈ s, c ≠ '.') (x : Nat) :
    accFrom runes (x, false) s
      = (x * 256 ^ s.length
          + ∑ i : Fin s.length, runes.at (s.get i) * 256 ^ (s.length - 1 - i.val), false) := by
  induction s generalizing x with
  | nil => simp [accFrom_nil]
  | cons c cs ih =>
    have hc : c ≠ '.' := hdot c (List.mem_cons_self _ _)
    have hcs : ∀ d ∈ cs, d ≠ '.' := fun d hd => hdot d (List.mem_cons_of_mem _ hd)
    rw [accFrom_cons, weighted_sum_cons]
    simp only [accStep, if_neg hc]
    rw [ih hcs]
    simp only [List.length_cons, Prod.mk.injEq, and_true]
    simp
    ring

theorem weighted_sum_lt (runes : RuneMap) (s : List Char) :
    ∑ i : Fin s.length, runes.at (s.get i) * 256 ^ (s.length - 1 - i.val) < 256 ^ s.length := by
  induction s with
  | nil => simp
  | cons c cs ih =>
    rw [weighted_sum_cons]
    have h1 := runes.at_lt c
    have h2 : runes.at c * 256 ^ cs.length ≤ 255 * 256 ^ cs.length :=
      Nat.mul_le_mul_right _ (by omega)
    have h3 : (256 : Nat) ^ (cs.length + 1) = 255 * 256 ^ cs.length + 256 ^ cs.length := by ring
    simp only [List.length_cons]
    omega

theorem pow256_le_of_le_four {k : Nat} (hk : k ≤ 4) : 256 ^ k ≤ 2 ^ 32 :=
  calc 256 ^ k ≤ 256 ^ 4 := Nat.pow_le_pow_right (by norm_num) hk
    _ = 2 ^ 32 := by norm_num

/-- The byte that the accumulation holds for the character `c` of `pre ++ c :: post`. -/
theorem accFrom_byte (runes : RuneMap) (heven : ∀ c, runes.at c % 2 = 0)
    (pre post : List Char) (c : Char) (hc : c ≠ '.') :
    (accFrom runes (0, false) (pre ++ c :: post)).1 / 256 ^ slotCount post % 256
      = runes.at c + (if pre.getLast? = some '.' then 1 else 0) := by
  have hflag : (accFrom runes (0, false) pre).2 = decide (pre.getLast? = some '.') := by
    rw [accFrom_flag]
    cases pre.getLast? with
    | none => simp
    | some d => simp
  rw [accFrom_append, accFrom_cons]
  generalize hst : accFrom runes (0, false) pre = st at hflag
  obtain ⟨xp, rpp⟩ := st
  simp only at hflag
  simp only [accStep, if_neg hc]
  rw [accFrom_linear]
  have hlt := accFrom_lt runes heven post false
  have hpos : 0 < 256 ^ slotCount post := by positivity
  simp only
  rw [Nat.add_comm, Nat.add_mul_div_right _ _ hpos, Nat.div_eq_of_lt hlt, Nat.zero_add]
  have h1 := runes.at_lt c
  have h2 := heven c
  subst hflag
  by_cases hd : pre.getLast? = some '.'
  · simp only [hd, decide_True, if_true]
    omega
  · simp only [hd, decide_False, if_false]
    simp
    omega

/-! ## Claims on `RS257543.toBits` -/

/-- C1. For every driver (hence every active table) and every text of at most 4 characters,
none of them `.`, `toBits` is the sum of `pattern (c_i) * 256 ^ (k - 1 - i)`: the first
character is in the most significant of the `k` low bytes, the last one in bits 0..7, and
the bytes above the `k`-th are 0. -/
theorem toBits_weighted_sum (r : RS257543) (s : List Char) (hk : s.length ≤ 4)
    (hdot : ∀ c ∈ s, c ≠ '.') :
    r.toBits s = ∑ i : Fin s.length, r.runes.at (s.get i) * 256 ^ (s.length - 1 - i.val)
      ∧ r.toBits s < 256 ^ s.length := by
  have hsum := weighted_sum_lt r.runes s
  have hval : r.toBits s
      = ∑ i : Fin s.length, r.runes.at (s.get i) * 256 ^ (s.length - 1 - i.val) := by
    rw [toBits_eq_acc_mod, accFrom_no_dot r.runes s hdot 0]
    simp only [Nat.zero_mul, Nat.zero_add]
    exact Nat.mod_eq_of_lt (Nat.lt_of_lt_of_le hsum (pow256_le_of_le_four hk))
  exact ⟨hval, hval ▸ hsum⟩

/-- C1 at the text `1234` with the default table. -/
theorem toBits_weighted_sum_witness :
    ['1', '2', '3', '4'].length ≤ 4 ∧ (∀ c ∈ ['1', '2', '3', '4'], c ≠ '.') ∧
      ((bare none).toBits ['1', '2', '3', '4']
          = ∑ i : Fin ['1', '2', '3', '4'].length,
              (bare none).runes.at (['1', '2', '3', '4'].get i)
                * 256 ^ (['1', '2', '3', '4'].length - 1 - i.val)
        ∧ (bare none).toBits ['1', '2', '3', '4'] < 256 ^ ['1', '2', '3', '4'].length) :=
  ⟨by decide, by decide, toBits_weighted_sum (bare none) ['1', '2', '3', '4'] (by decide) (by decide)⟩

/-- C2. With `RuneMap` nil, `toBits` of each one-character text over the 19 characters of
the default table is exactly the documented 8-bit pattern, so bits 8..31 are zero. -/
theorem toBits_default_single (DEG COL CUR : Bool) :
    let r : RS257543 := { DEG := DEG, COL := COL, CUR := CUR, RuneMap := none }
    r.toBits [' '] = 0b00000000 ∧ r.toBits ['-'] = 0b10000000 ∧ r.toBits ['_'] = 0b00000100
      ∧ r.toBits ['0'] = 0b01111110 ∧ r.toBits ['1'] = 0b00011000
      ∧ r.toBits ['2'] = 0b10110110 ∧ r.toBits ['3'] = 0b10111100
      ∧ r.toBits ['4'] = 0b11011000 ∧ r.toBits ['5'] = 0b11101100
      ∧ r.toBits ['6'] = 0b11101110 ∧ r.toBits ['7'] = 0b00111000
      ∧ r.toBits ['8'] = 0b11111110 ∧ r.toBits ['9'] = 0b11111100
      ∧ r.toBits ['A'] = 0b11111010 ∧ r.toBits ['B'] = 0b11001110
      ∧ r.toBits ['C'] = 0b01100110 ∧ r.toBits ['D'] = 0b10011110
      ∧ r.toBits ['E'] = 0b11100110 ∧ r.toBits ['F'] = 0b11100010
      ∧ defaultRuneMap.length = 19
      ∧ ∀ p ∈ defaultRuneMap, r.toBits [p.1] = p.2 ∧ r.toBits [p.1] < 2 ^ 8 := by
  intro r
  have hr : ∀ s, r.toBits s = (bare none).toBits s := fun _ => rfl
  simp only [hr]
  decide

/-- C3, as the claim states it, fails: with the default table `toBits "1."` is the bare
pattern of `1`, not the pattern plus the decimal-point bit. -/
theorem toBits_one_dot_no_dp :
    (bare none).toBits ['1', '.'] ≠ defaultRuneMap.at '1' + 1
      ∧ (bare none).toBits ['1', '.'] ≠ 0b00011001
      ∧ (bare none).toBits ['1', '.'] / 256 ^ 0 % 2 = 0 := by
  decide

/-- C3, amended. With the default table a `.` sets the decimal-point bit of the character
that follows it: `toBits ".1"` is the pattern of `1` plus 1, `toBits "1."` is the bare
pattern, and in a text with at most 4 characters other than `.`, bit 0 of the byte of such a
character is set exactly when the character immediately before it in the text is `.`. -/
theorem toBits_dp_bit_iff_after_dot (DEG COL CUR : Bool) :
    let r : RS257543 := { DEG := DEG, COL := COL, CUR := CUR, RuneMap := none }
    r.toBits ['.', '1'] = 0b00011001 ∧ r.toBits ['1', '.'] = 0b00011000
      ∧ ∀ (pre post : List Char) (c : Char), c ≠ '.' → slotCount (pre ++ c :: post) ≤ 4 →
          (r.toBits (pre ++ c :: post) / 256 ^ slotCount post % 2 = 1
            ↔ pre.getLast? = some '.') := by
  intro r
  refine ⟨rfl, rfl, ?_⟩
  intro pre post c hc hk
  have hbyte := accFrom_byte r.runes defaultRuneMap_even pre post c hc
  have hlt := accFrom_lt r.runes defaultRuneMap_even (pre ++ c :: post) false
  have hmod : r.toBits (pre ++ c :: post) = (accFrom r.runes (0, false) (pre ++ c :: post)).1 := by
    rw [toBits_eq_acc_mod]
    exact Nat.mod_eq_of_lt (Nat.lt_of_lt_of_le hlt (pow256_le_of_le_four hk))
  have heven := defaultRuneMap_even c
  have hbit : r.toBits (pre ++ c :: post) / 256 ^ slotCount post % 2
      = (r.runes.at c + (if pre.getLast? = some '.' then 1 else 0)) % 2 := by
    rw [hmod, ← hbyte]
    omega
  rw [hbit]
  have heven : r.runes.at c % 2 = 0 := defaultRuneMap_even c
  by_cases hd : pre.getLast? = some '.'
  · simp only [hd, if_true, iff_true]
    omega
  · simp only [hd, if_false, iff_false]
    omega

/-- C3, amended, at the text `2.1.3`: the byte of `1`, which follows a `.`, has bit 0 set. -/
theorem toBits_dp_bit_iff_after_dot_witness :
    '1' ≠ '.' ∧ slotCount (['2', '.'] ++ '1' :: ['.', '3']) ≤ 4 ∧
      ((bare none).toBits (['2', '.'] ++ '1' :: ['.', '3']) / 256 ^ slotCount ['.', '3'] % 2 = 1
        ↔ ['2', '.'].getLast? = some '.') :=
  ⟨by decide, by decide,
    (toBits_dp_bit_iff_after_dot false false false).2.2 ['2', '.'] ['.', '3'] '1'
      (by decide) (by decide)⟩

/-- C4. A `.` is translated into the DP segment of the following digit. For every table whose
patterns have bit 0 clear and every text with at most 4 characters other than `.`, the byte
that `toBits` produces for a character `c` other than `.` is `pattern c + 1` if the character
immediately before `c` in the text is `.` and `pattern c` otherwise; the `.` takes no digit
slot, so the value fills only as many bytes as there are characters other than `.`. -/
theorem toBits_byte_of_char (r : RS257543) (heven : ∀ c, r.runes.at c % 2 = 0)
    (pre post : List Char) (c : Char) (hc : c ≠ '.')
    (hk : slotCount (pre ++ c :: post) ≤ 4) :
    r.toBits (pre ++ c :: post) / 256 ^ slotCount post % 256
        = r.runes.at c + (if pre.getLast? = some '.' then 1 else 0)
      ∧ r.toBits (pre ++ c :: post) < 256 ^ slotCount (pre ++ c :: post) := by
  have hlt := accFrom_lt r.runes heven (pre ++ c :: post) false
  have hmod : r.toBits (pre ++ c :: post) = (accFrom r.runes (0, false) (pre ++ c :: post)).1 := by
    rw [toBits_eq_acc_mod]
    exact Nat.mod_eq_of_lt (Nat.lt_of_lt_of_le hlt (pow256_le_of_le_four hk))
  rw [hmod]
  exact ⟨accFrom_byte r.runes heven pre post c hc, hlt⟩

/-- C4 at the text `1..7A.F.` with the default table, for the character `7`. -/
theorem toBits_byte_of_char_witness :
    (∀ c, (bare none).runes.at c % 2 = 0) ∧ '7' ≠ '.'
      ∧ slotCount (['1', '.', '.'] ++ '7' :: ['A', '.', 'F', '.']) ≤ 4
      ∧ ((bare none).toBits (['1', '.', '.'] ++ '7' :: ['A', '.', 'F', '.'])
              / 256 ^ slotCount ['A', '.', 'F', '.'] % 256
            = (bare none).runes.at '7' + (if ['1', '.', '.'].getLast? = some '.' then 1 else 0)
          ∧ (bare none).toBits (['1', '.', '.'] ++ '7' :: ['A', '.', 'F', '.'])
              < 256 ^ slotCount (['1', '.', '.'] ++ '7' :: ['A', '.', 'F', '.'])) :=
  ⟨defaultRuneMap_even, by decide, by decide,
    toBits_byte_of_char (bare none) defaultRuneMap_even ['1', '.', '.'] ['A', '.', 'F', '.'] '7'
      (by decide) (by decide)⟩

/-! ## Claims on `RS257543.RawDisplay` -/

theorem pinOps_append {P : Type} (a b : List (Event P)) :
    pinOps (a ++ b) = pinOps a ++ pinOps b := by
  simp [pinOps]

/-- The pin operations of one pass over `n` bits: data, clock up, clock down, per bit. -/
theorem pinOps_rawDisplayLoop (n bits : Nat) :
    pinOps (RS257543.rawDisplayLoop n bits)
      = (List.range n).flatMap fun i =>
          [Event.out SegPin.DIN (bits.testBit i), .out .CLK true, .out .CLK false] := by
  induction n generalizing bits with
  | zero => rfl
  | succ n ih =>
    rw [RS257543.rawDisplayLoop, pinOps_append, ih, List.range_succ_eq_map,
      List.flatMap_cons, List.flatMap_map]
    have hbit : (bits &&& 1 == 1) = bits.testBit 0 := by
      rw [Nat.testBit_zero, Nat.and_one_is_mod]
      by_cases h : bits % 2 = 1 <;> simp [h]
    congr 1
    · rw [hbit]
      rfl
    · apply congrArg
      funext i
      simp [Nat.testBit_shiftRight, Nat.add_comm]

theorem count_clock_ops (bits n : Nat) (e : Event SegPin)
    (he : e = .out .CLK true ∨ e = .out .CLK false) :
    ((List.range n).flatMap fun i =>
        [Event.out SegPin.DIN (bits.testBit i), .out .CLK true, .out .CLK false]).count e = n := by
  induction n with
  | zero => rfl
  | succ n ih =>
    rw [List.range_succ, List.flatMap_append, List.count_append, ih]
    rcases he with rfl | rfl <;> simp [List.count_cons]

theorem length_clock_ops (bits n : Nat) :
    ((List.range n).flatMap fun i =>
        [Event.out SegPin.DIN (bits.testBit i), .out .CLK true, .out .CLK false]).length
      = 3 * n := by
  induction n with
  | zero => rfl
  | succ n ih =>
    rw [List.range_succ, List.flatMap_append, List.length_append, ih]
    simp
    omega

theorem count_latch_ops (bits n : Nat) (l : Bool) :
    ((List.range n).flatMap fun i =>
        [Event.out SegPin.DIN (bits.testBit i), .out .CLK true, .out .CLK false]).count
      (.out .LD l) = 0 := by
  rw [List.count_eq_zero]
  simp [List.mem_flatMap]

/-- C5. For every value `bits`, the pin operations of `RawDisplay bits` are, for `i = 0..31`
in order, `DIN` driven to bit `i` of `bits` (least significant first), `CLK` high, `CLK` low,
and then `LD` high, `LD` low. So there are exactly 32 clock pulses and one latch pulse
whatever `bits` is, and no latch operation among the clock pulses. -/
theorem RawDisplay_pin_trace (r : RS257543) (bits : Nat) :
    pinOps (r.RawDisplay bits)
        = ((List.range 32).flatMap fun i =>
            [Event.out SegPin.DIN (bits.testBit i), .out .CLK true, .out .CLK false])
          ++ [.out .LD true, .out .LD false]
      ∧ (pinOps (r.RawDisplay bits)).count (.out .CLK true) = 32
      ∧ (pinOps (r.RawDisplay bits)).count (.out .CLK false) = 32
      ∧ (pinOps (r.RawDisplay bits)).count (.out .LD true) = 1
      ∧ (pinOps (r.RawDisplay bits)).count (.out .LD false) = 1
      ∧ (pinOps (r.RawDisplay bits)).length = 98
      ∧ ∀ e ∈ (pinOps (r.RawDisplay bits)).take 96, e.pin ≠ some SegPin.LD := by
  have htrace : pinOps (r.RawDisplay bits)
      = ((List.range 32).flatMap fun i =>
            [Event.out SegPin.DIN (bits.testBit i), .out .CLK true, .out .CLK false])
          ++ [.out .LD true, .out .LD false] := by
    rw [RS257543.RawDisplay, pinOps_append, pinOps_rawDisplayLoop]
    rfl
  have hlen : ((List.range 32).flatMap fun i =>
      [Event.out SegPin.DIN (bits.testBit i), .out .CLK true, .out .CLK false]).length = 96 := by
    rw [length_clock_ops]
  refine ⟨htrace, ?_, ?_, ?_, ?_, ?_, ?_⟩
  · rw [htrace, List.count_append, count_clock_ops bits 32 _ (Or.inl rfl)]
    simp [List.count_cons]
  · rw [htrace, List.count_append, count_clock_ops bits 32 _ (Or.inr rfl)]
    simp [List.count_cons]
  · rw [htrace, List.count_append, count_latch_ops]
    simp [List.count_cons]
  · rw [htrace, List.count_append, count_latch_ops]
    simp [List.count_cons]
  · rw [htrace, List.length_append, hlen]
    rfl
  · rw [htrace, List.take_left' hlen]
    intro e he
    simp only [List.mem_flatMap, List.mem_range] at he
    obtain ⟨i, _, hi⟩ := he
    simp only [List.mem_cons, List.mem_singleton, List.not_mem_nil, or_false] at hi
    rcases hi with rfl | rfl | rfl <;> simp [Event.pin]

/-! ## Claims on the QP5515 command bytes -/

/-- The mask `1 << i` of `rawWriteData` tests bit `i` of the byte. -/
theorem and_one_shiftLeft_ne_zero (b i : Nat) (hi : i < 8) :
    (b &&& ((1 <<< i) % 256) != 0) = b.testBit i := by
  have hpow : (1 <<< i) % 256 = 2 ^ i := by
    rw [Nat.shiftLeft_eq, Nat.one_mul]
    apply Nat.mod_eq_of_lt
    calc 2 ^ i < 2 ^ 8 := Nat.pow_lt_pow_right (by norm_num) hi
      _ = 256 := by norm_num
  rw [hpow, Nat.and_two_pow]
  cases b.testBit i <;> simp

/-- The byte of a raw write cycle can be read back from its trace. -/
theorem rawWriteData_inj {a b : Nat} (ha : a < 256) (hb : b < 256)
    (h : QP5515.rawWriteData a = QP5515.rawWriteData b) : a = b := by
  unfold QP5515.rawWriteData at h
  have h1 := List.append_inj_left' h rfl
  have h2 := List.append_inj_right h1 (by simp)
  rw [List.map_inj_left] at h2
  apply Nat.eq_of_testBit_eq
  intro i
  by_cases hi : i < 8
  · have h3 := h2 i (List.mem_range.mpr hi)
    simp only [Event.out.injEq, true_and] at h3
    rw [and_one_shiftLeft_ne_zero a i hi, and_one_shiftLeft_ne_zero b i hi] at h3
    exact h3
  · have hle : 2 ^ 8 ≤ 2 ^ i := Nat.pow_le_pow_right (by norm_num) (by omega)
    rw [Nat.testBit_lt_two_pow (by omega : a < 2 ^ i),
      Nat.testBit_lt_two_pow (by omega : b < 2 ^ i)]

theorem RawFunction_inj {a b : Nat} (ha : a < 256) (hb : b < 256)
    (h : QP5515.RawFunction a = QP5515.RawFunction b) : a = b :=
  rawWriteData_inj ha hb (List.cons.inj h).2

set_option maxRecDepth 100000 in
theorem cg_byte_arith : ∀ a < 256,
    ((a + 0b01000000) % 256 = 0b01000000 ||| (a &&& 0x3F) ↔ a < 64) := by
  decide

set_option maxRecDepth 100000 in
theorem dd_byte_arith : ∀ a < 256,
    ((a + 0b10000000) % 256 = 0b10000000 ||| (a &&& 0x7F) ↔ a < 128) := by
  decide

set_option maxRecDepth 100000 in
theorem cg_mask_lt : ∀ a < 256, 0b01000000 ||| (a &&& 0x3F) < 256 := by
  decide

set_option maxRecDepth 100000 in
theorem dd_mask_lt : ∀ a < 256, 0b10000000 ||| (a &&& 0x7F) < 256 := by
  decide

/-- C6. For all boolean arguments each mode command is one command write, `RawFunction`,
of its opcode OR-ed with its flag bits (the additions of the code never carry); the three
bytes of the example are as documented. -/
theorem mode_command_bytes (inc shift d c b s rt e t l : Bool) :
    QP5515.SetEntryMode inc shift
        = QP5515.RawFunction (0x04 ||| (inc.toNat <<< 1) ||| shift.toNat)
      ∧ QP5515.SetDisplayMode d c b
        = QP5515.RawFunction (0x08 ||| (d.toNat <<< 2) ||| (c.toNat <<< 1) ||| b.toNat)
      ∧ QP5515.SetDisplayShiftOrCursorMove s rt
        = QP5515.RawFunction (0x10 ||| (s.toNat <<< 3) ||| (rt.toNat <<< 2))
      ∧ QP5515.SetFunction e t l
        = QP5515.RawFunction (0x20 ||| (e.toNat <<< 4) ||| (t.toNat <<< 3) ||| (l.toNat <<< 2))
      ∧ QP5515.SetFunction true true false = QP5515.RawFunction 0b00111000
      ∧ QP5515.SetDisplayMode true false false = QP5515.RawFunction 0b00001100
      ∧ QP5515.SetEntryMode true false = QP5515.RawFunction 0b00000110 := by
  refine ⟨?_, ?_, ?_, ?_, rfl, rfl, rfl⟩
  · cases inc <;> cases shift <;> rfl
  · cases d <;> cases c <;> cases b <;> rfl
  · cases s <;> cases rt <;> rfl
  · cases e <;> cases t <;> cases l <;> rfl

/-- C7, as the claim states it, fails at `a = 64`: the issued byte is `0b10000000`, not
`0b01000000 | (64 & 0x3F)`. -/
theorem SetCGAddress_64_not_masked :
    QP5515.SetCGAddress 64 ≠ QP5515.RawFunction (0b01000000 ||| (64 &&& 0x3F))
      ∧ QP5515.SetCGAddress 64 = QP5515.RawFunction 0b10000000 := by
  decide

/-- C7, amended. For every 8-bit `a`, `SetCGAddress a` issues the command byte
`(a + 0b01000000) mod 256`, which is `0b01000000 | (a & 0x3F)` exactly when `a < 64`, the
range the code documents. -/
theorem SetCGAddress_byte (a : Nat) (ha : a < 256) :
    QP5515.SetCGAddress a = QP5515.RawFunction ((a + 0b01000000) % 256)
      ∧ (QP5515.SetCGAddress a = QP5515.RawFunction (0b01000000 ||| (a &&& 0x3F)) ↔ a < 64) := by
  refine ⟨rfl, ?_⟩
  rw [← cg_byte_arith a ha]
  constructor
  · intro h
    exact RawFunction_inj (Nat.mod_lt _ (by norm_num)) (cg_mask_lt a ha) h
  · intro h
    show QP5515.RawFunction ((a + 0b01000000) % 256) = _
    rw [h]

/-- C7, amended, at `a = 5`. -/
theorem SetCGAddress_byte_witness :
    (5 < 256) ∧ QP5515.SetCGAddress 5 = QP5515.RawFunction ((5 + 0b01000000) % 256)
      ∧ (QP5515.SetCGAddress 5 = QP5515.RawFunction (0b01000000 ||| (5 &&& 0x3F)) ↔ 5 < 64) :=
  ⟨by decide, SetCGAddress_byte 5 (by decide)⟩

/-- C8, as the claim states it, fails at `a = 128`: the issued byte is `0`, with bit 7
clear, not `0b10000000 | (128 & 0x7F)`. -/
theorem SetDDAddress_128_not_masked :
    QP5515.SetDDAddress 128 ≠ QP5515.RawFunction (0b10000000 ||| (128 &&& 0x7F))
      ∧ QP5515.SetDDAddress 128 = QP5515.RawFunction 0 := by
  decide

/-- C8, amended. For every 8-bit `a`, `SetDDAddress a` issues the command byte
`(a + 0b10000000) mod 256`, which is `0b10000000 | (a & 0x7F)` exactly when `a < 128`, the
range the code documents. -/
theorem SetDDAddress_byte (a : Nat) (ha : a < 256) :
    QP5515.SetDDAddress a = QP5515.RawFunction ((a + 0b10000000) % 256)
      ∧ (QP5515.SetDDAddress a = QP5515.RawFunction (0b10000000 ||| (a &&& 0x7F))
          ↔ a < 128) := by
  refine ⟨rfl, ?_⟩
  rw [← dd_byte_arith a ha]
  constructor
  · intro h
    exact RawFunction_inj (Nat.mod_lt _ (by norm_num)) (dd_mask_lt a ha) h
  · intro h
    show QP5515.RawFunction ((a + 0b10000000) % 256) = _
    rw [h]

/-- C8, amended, at `a = 0x40`, the address the example sets. -/
theorem SetDDAddress_byte_witness :
    (0x40 < 256) ∧ QP5515.SetDDAddress 0x40 = QP5515.RawFunction ((0x40 + 0b10000000) % 256)
      ∧ (QP5515.SetDDAddress 0x40 = QP5515.RawFunction (0b10000000 ||| (0x40 &&& 0x7F))
          ↔ 0x40 < 128) :=
  ⟨by decide, SetDDAddress_byte 0x40 (by decide)⟩

/-! ## Claims on the QP5515 bus transactions -/

theorem foldl_trace_split {α β : Type} (g : Nat → α) (h : β → Nat → β) (l : List Nat)
    (t : List α) (b : β) :
    l.foldl (fun st i => (st.1 ++ [g i], h st.2 i)) (t, b) = (t ++ l.map g, l.foldl h b) := by
  induction l generalizing t b with
  | nil => simp
  | cons i is ih => simp [ih]

/-- The pin trace of a raw read cycle. -/
theorem rawReadData_trace (db : Nat → Bool) :
    (QP5515.rawReadData db).1
      = ((List.range 8).map fun i => Event.inp (BusPin.DB i))
          ++ [.out .RW true, .sleep 250, .out .E true, .sleep 250]
          ++ ((List.range 8).map fun i => Event.read (BusPin.DB i) (db i))
          ++ [.out .E false, .sleep 500] := by
  unfold QP5515.rawReadData
  simp only
  rw [foldl_trace_split (fun i => Event.read (BusPin.DB i) (db i))
    (fun b i => if !db i then b else (b + (1 <<< i) % 256) % 256)]
  simp

theorem rawReadData_no_RS (db : Nat → Bool) :
    ∀ e ∈ (QP5515.rawReadData db).1, e.pin ≠ some BusPin.RS := by
  intro e he
  rw [rawReadData_trace] at he
  simp only [List.mem_append, List.mem_map, List.mem_cons, List.mem_singleton,
    List.not_mem_nil, or_false] at he
  rcases he with ((⟨i, _, rfl⟩ | h) | ⟨i, _, rfl⟩) | h
  · simp [Event.pin]
  · rcases h with rfl | rfl | rfl | rfl <;> simp [Event.pin]
  · simp [Event.pin]
  · rcases h with rfl | rfl <;> simp [Event.pin]

theorem rawWriteData_no_RS (b : Nat) :
    ∀ e ∈ QP5515.rawWriteData b, e.pin ≠ some BusPin.RS := by
  intro e he
  unfold QP5515.rawWriteData at he
  simp only [List.mem_append, List.mem_map, List.mem_cons, List.mem_singleton,
    List.not_mem_nil, or_false] at he
  rcases he with ((⟨i, _, rfl⟩ | h) | ⟨i, _, rfl⟩) | h
  · simp [Event.pin]
  · rcases h with rfl | rfl | rfl | rfl <;> simp [Event.pin]
  · simp [Event.pin]
  · rcases h with rfl | rfl <;> simp [Event.pin]

theorem RawFunction_drivesRS (a : Nat) : drivesRSFirstOnly false (QP5515.RawFunction a) :=
  ⟨rfl, rawWriteData_no_RS a⟩

theorem count_eq_zero_of_pin {tr : List (Event BusPin)} (e : Event BusPin) (p : BusPin)
    (hp : e.pin = some p) (h : ∀ x ∈ tr, x.pin ≠ some p) : tr.count e = 0 := by
  rw [List.count_eq_zero]
  intro he
  exact h e he hp

theorem ReadBFAC_count_RS (db : Nat → Bool) :
    (QP5515.ReadBFAC db).1.count (.out .RS false) = 1 := by
  show (Event.out BusPin.RS false :: (QP5515.rawReadData db).1).count (.out .RS false) = 1
  rw [List.count_cons_self, count_eq_zero_of_pin (.out .RS false) .RS rfl (rawReadData_no_RS db)]

theorem ReadBFAC_count_tick (db : Nat → Bool) :
    (QP5515.ReadBFAC db).1.count .tick = 0 := by
  show (Event.out BusPin.RS false :: (QP5515.rawReadData db).1).count .tick = 0
  rw [rawReadData_trace, List.count_eq_zero]
  simp

theorem pollTrace_counts (bus : Nat → Nat → Bool) (s k : Nat) :
    (pollTrace bus s k).count (.out .RS false) = k + 1 ∧ (pollTrace bus s k).count .tick = k := by
  unfold pollTrace
  induction k with
  | zero => simp [ReadBFAC_count_RS, ReadBFAC_count_tick]
  | succ k ih =>
    rw [List.range_succ, List.flatMap_append, ← List.append_assoc]
    constructor
    · rw [List.count_append, ih.1]
      simp [List.count_cons, ReadBFAC_count_RS]
    · rw [List.count_append, ih.2]
      simp [List.count_cons, ReadBFAC_count_tick]

/-- The ticker loop returns at the first poll that shows the busy flag clear. -/
theorem busyWaitLoop_first_ready (bus : Nat → Nat → Bool) (k s fuel : Nat)
    (hbusy : ∀ j < k, (QP5515.ReadBFAC (bus (s + j))).2 &&& 0b10000000 ≠ 0)
    (hready : (QP5515.ReadBFAC (bus (s + k))).2 &&& 0b10000000 = 0)
    (hfuel : k < fuel) :
    QP5515.busyWaitLoop bus fuel s
      = some ((List.range (k + 1)).flatMap
          (fun j => Event.tick :: (QP5515.ReadBFAC (bus (s + j))).1), s + k + 1) := by
  induction k generalizing s fuel with
  | zero =>
    obtain ⟨f, rfl⟩ : ∃ f, fuel = f + 1 := ⟨fuel - 1, by omega⟩
    simp only [Nat.add_zero] at hready
    simp [QP5515.busyWaitLoop, hready, List.range_succ]
  | succ k ih =>
    obtain ⟨f, rfl⟩ : ∃ f, fuel = f + 1 := ⟨fuel - 1, by omega⟩
    have h0 := hbusy 0 (by omega)
    simp only [Nat.add_zero] at h0
    have hih := ih (s + 1) f
      (fun j hj => by
        have := hbusy (j + 1) (by omega)
        rwa [show s + 1 + j = s + (j + 1) by omega])
      (by rwa [show s + 1 + k = s + (k + 1) by omega])
      (by omega)
    rw [QP5515.busyWaitLoop]
    simp only [h0, if_false, hih, Option.map_some']
    rw [List.range_succ_eq_map (k + 1), List.flatMap_cons, List.flatMap_map]
    simp only [Nat.add_zero, List.cons_append, Option.some.injEq, Prod.mk.injEq, List.cons.injEq,
      true_and]
    refine ⟨?_, by omega⟩
    congr 2
    funext j
    simp only [Function.comp, Nat.succ_eq_add_one]
    rw [show s + 1 + j = s + (j + 1) by omega]

theorem BusyWait_returns (bus : Nat → Nat → Bool) (s k fuel : Nat)
    (hbusy : ∀ j < k, (QP5515.ReadBFAC (bus (s + j))).2 &&& 0b10000000 ≠ 0)
    (hready : (QP5515.ReadBFAC (bus (s + k))).2 &&& 0b10000000 = 0)
    (hfuel : k ≤ fuel) :
    QP5515.BusyWait bus fuel s = some (pollTrace bus s k, s + k + 1) := by
  cases k with
  | zero =>
    simp only [Nat.add_zero] at hready
    simp [QP5515.BusyWait, hready, pollTrace]
  | succ k =>
    have h0 := hbusy 0 (by omega)
    simp only [Nat.add_zero] at h0
    have hloop := busyWaitLoop_first_ready bus k (s + 1) fuel
      (fun j hj => by
        have := hbusy (j + 1) (by omega)
        rwa [show s + 1 + j = s + (j + 1) by omega])
      (by rwa [show s + 1 + k = s + (k + 1) by omega])
      (by omega)
    unfold QP5515.BusyWait pollTrace
    simp only [h0, if_false, hloop, Option.map_some', Option.some.injEq, Prod.mk.injEq]
    exact ⟨trivial, by omega⟩

/-- C9. Let the module be the sequence of levels it presents at successive raw read cycles,
and let poll `s + k` be the first from `s` on whose `ReadBFAC` value has bit 7 clear. Then
`BusyWait`, started at poll `s` with enough fuel for `k` ticker iterations, returns, having
performed exactly the `k + 1` read cycles `s .. s + k` and waited `k` ticks: one read and no
tick when `k = 0`. Bits 0..6 of the polled values play no part: a module whose polled values
agree with these on bit 7 is read exactly as many times. -/
theorem BusyWait_first_ready (bus : Nat → Nat → Bool) (s k fuel : Nat)
    (hbusy : ∀ j < k, (QP5515.ReadBFAC (bus (s + j))).2 &&& 0b10000000 ≠ 0)
    (hready : (QP5515.ReadBFAC (bus (s + k))).2 &&& 0b10000000 = 0)
    (hfuel : k ≤ fuel) :
    QP5515.BusyWait bus fuel s = some (pollTrace bus s k, s + k + 1)
      ∧ (pollTrace bus s k).count (.out .RS false) = k + 1
      ∧ (pollTrace bus s k).count .tick = k
      ∧ ∀ bus2 : Nat → Nat → Bool,
          (∀ n, ((QP5515.ReadBFAC (bus2 n)).2 &&& 0b10000000 = 0
                  ↔ (QP5515.ReadBFAC (bus n)).2 &&& 0b10000000 = 0)) →
          (QP5515.BusyWait bus2 fuel s).map Prod.snd = some (s + k + 1) := by
  refine ⟨BusyWait_returns bus s k fuel hbusy hready hfuel,
    (pollTrace_counts bus s k).1, (pollTrace_counts bus s k).2, ?_⟩
  intro bus2 hsame
  rw [BusyWait_returns bus2 s k fuel
    (fun j hj h => hbusy j hj ((hsame (s + j)).mp h))
    ((hsame (s + k)).mpr hready) hfuel]
  rfl

/-- C9 on a module that is busy for its first two polls and ready at the third. -/
theorem BusyWait_first_ready_witness :
    (∀ j < 2, (QP5515.ReadBFAC (busyTwice (0 + j))).2 &&& 0b10000000 ≠ 0)
      ∧ (QP5515.ReadBFAC (busyTwice (0 + 2))).2 &&& 0b10000000 = 0
      ∧ 2 ≤ 2
      ∧ (QP5515.BusyWait busyTwice 2 0 = some (pollTrace busyTwice 0 2, 0 + 2 + 1)
          ∧ (pollTrace busyTwice 0 2).count (.out .RS false) = 2 + 1
          ∧ (pollTrace busyTwice 0 2).count .tick = 2
          ∧ ∀ bus2 : Nat → Nat → Bool,
              (∀ n, ((QP5515.ReadBFAC (bus2 n)).2 &&& 0b10000000 = 0
                      ↔ (QP5515.ReadBFAC (busyTwice n)).2 &&& 0b10000000 = 0)) →
              (QP5515.BusyWait bus2 2 0).map Prod.snd = some (0 + 2 + 1)) :=
  ⟨by decide, by decide, by decide,
    BusyWait_first_ready busyTwice 0 2 2 (by decide) (by decide) (by decide)⟩

/-- C10. Every bus transaction drives `RS` exactly once, as its first operation, and the raw
cycle that follows never touches `RS`: `WriteData` and `ReadData` drive it high, `RawFunction`
(hence `Clear`, `ReturnHome` and every `Set*` command) and `ReadBFAC` drive it low. -/
theorem RS_driven_once_first (b a : Nat) (db : Nat → Bool) (f1 f2 f3 : Bool) :
    (drivesRSFirstOnly true (QP5515.WriteData b)
        ∧ (QP5515.WriteData b).tail = QP5515.rawWriteData b)
      ∧ (drivesRSFirstOnly true (QP5515.ReadData db).1
        ∧ (QP5515.ReadData db).1.tail = (QP5515.rawReadData db).1)
      ∧ (drivesRSFirstOnly false (QP5515.RawFunction a)
        ∧ (QP5515.RawFunction a).tail = QP5515.rawWriteData a)
      ∧ (drivesRSFirstOnly false (QP5515.ReadBFAC db).1
        ∧ (QP5515.ReadBFAC db).1.tail = (QP5515.rawReadData db).1)
      ∧ drivesRSFirstOnly false QP5515.Clear
      ∧ drivesRSFirstOnly false QP5515.ReturnHome
      ∧ drivesRSFirstOnly false (QP5515.SetEntryMode f1 f2)
      ∧ drivesRSFirstOnly false (QP5515.SetDisplayMode f1 f2 f3)
      ∧ drivesRSFirstOnly false (QP5515.SetDisplayShiftOrCursorMove f1 f2)
      ∧ drivesRSFirstOnly false (QP5515.SetFunction f1 f2 f3)
      ∧ drivesRSFirstOnly false (QP5515.SetCGAddress a)
      ∧ drivesRSFirstOnly false (QP5515.SetDDAddress a) :=
  ⟨⟨⟨rfl, rawWriteData_no_RS b⟩, rfl⟩,
    ⟨⟨rfl, rawReadData_no_RS db⟩, rfl⟩,
    ⟨RawFunction_drivesRS a, rfl⟩,
    ⟨⟨rfl, rawReadData_no_RS db⟩, rfl⟩,
    RawFunction_drivesRS _, RawFunction_drivesRS _, RawFunction_drivesRS _,
    RawFunction_drivesRS _, RawFunction_drivesRS _, RawFunction_drivesRS _,
    RawFunction_drivesRS _, RawFunction_drivesRS _⟩

/-! ## Claims on the raw bus cycles -/

theorem bitSum_succ (db : Nat → Bool) (n : Nat) :
    bitSum db (n + 1) = bitSum db n + (if db n then 2 ^ n else 0) := by
  simp [bitSum, List.range_succ]

theorem bitSum_lt (db : Nat → Bool) (n : Nat) : bitSum db n < 2 ^ n := by
  induction n with
  | zero => simp [bitSum]
  | succ n ih =>
    rw [bitSum_succ, Nat.pow_succ]
    split <;> omega

theorem bitSum_testBit (db : Nat → Bool) (n i : Nat) :
    (bitSum db n).testBit i = (decide (i < n) && db i) := by
  induction n with
  | zero => simp [bitSum]
  | succ n ih =>
    rw [bitSum_succ]
    by_cases hdb : db n = true
    · rw [if_pos hdb, Nat.add_comm]
      rcases Nat.lt_trichotomy i n with hlt | heq | hgt
      · rw [Nat.testBit_two_pow_add_gt hlt, ih]
        simp [hlt, Nat.lt_succ_of_lt hlt]
      · subst heq
        rw [Nat.testBit_two_pow_add_eq, Nat.testBit_lt_two_pow (bitSum_lt db i)]
        simp [hdb]
      · have hlt : 2 ^ n + bitSum db n < 2 ^ i := by
          have h1 := bitSum_lt db n
          have h2 : 2 ^ (n + 1) ≤ 2 ^ i := Nat.pow_le_pow_right (by norm_num) hgt
          rw [Nat.pow_succ] at h2
          omega
        rw [Nat.testBit_lt_two_pow hlt]
        have : ¬ i < n + 1 := by omega
        simp [this]
    · rw [if_neg hdb, Nat.add_zero, ih]
      by_cases hin : i = n
      · subst hin
        simp [hdb]
      · have : (i < n + 1) ↔ (i < n) := by omega
        simp [this]

/-- The `uint8` accumulation of `rawReadData` over the first `n` pins never wraps. -/
theorem readFold_eq_bitSum (db : Nat → Bool) (n : Nat) (hn : n ≤ 8) :
    (List.range n).foldl
        (fun b i => if !db i then b else (b + (1 <<< i) % 256) % 256) 0
      = bitSum db n := by
  induction n with
  | zero => rfl
  | succ n ih =>
    rw [List.range_succ, List.foldl_append, ih (by omega), bitSum_succ]
    have hlt := bitSum_lt db n
    have hpow : (2 : Nat) ^ n * 2 ≤ 256 := by
      calc (2 : Nat) ^ n * 2 = 2 ^ (n + 1) := by ring
        _ ≤ 2 ^ 8 := Nat.pow_le_pow_right (by norm_num) hn
        _ = 256 := by norm_num
    by_cases hdb : db n = true
    · simp only [List.foldl_cons, List.foldl_nil, hdb, Bool.not_true, if_true, Nat.shiftLeft_eq,
        Nat.one_mul]
      simp only [Bool.false_eq_true, if_false]
      rw [Nat.mod_eq_of_lt (by omega : 2 ^ n < 256), Nat.mod_eq_of_lt (by omega)]
    · simp [hdb]

theorem rawReadData_byte_eq (db : Nat → Bool) : (QP5515.rawReadData db).2 = bitSum db 8 := by
  unfold QP5515.rawReadData
  simp only
  rw [foldl_trace_split (fun i => Event.read (BusPin.DB i) (db i))
    (fun b i => if !db i then b else (b + (1 <<< i) % 256) % 256)]
  exact readFold_eq_bitSum db 8 (Nat.le_refl 8)

/-- C11. For every assignment of levels to the data-bus pins, `rawReadData` returns the sum
of `2 ^ i` over the pins `DB[i]` that read high, which is below 256, so bit `i` of the
result is set exactly when `DB[i]` reads high; the eight reads come after the eight pins are
switched to input, `RW` is driven high and `E` is driven high, and before `E` is driven
low. -/
theorem rawReadData_result (db : Nat → Bool) :
    (QP5515.rawReadData db).2 = ((List.range 8).map fun i => if db i then 2 ^ i else 0).sum
      ∧ (∀ i : Fin 8, (QP5515.rawReadData db).2.testBit i.val = db i.val)
      ∧ (QP5515.rawReadData db).2 < 256
      ∧ (QP5515.rawReadData db).1
          = ((List.range 8).map fun i => Event.inp (BusPin.DB i))
              ++ [.out .RW true, .sleep 250, .out .E true, .sleep 250]
              ++ ((List.range 8).map fun i => Event.read (BusPin.DB i) (db i))
              ++ [.out .E false, .sleep 500] := by
  refine ⟨rawReadData_byte_eq db, ?_, ?_, rawReadData_trace db⟩
  · intro i
    rw [rawReadData_byte_eq, bitSum_testBit]
    simp [i.isLt]
  · rw [rawReadData_byte_eq]
    exact bitSum_lt db 8

/-- The trace of a raw write cycle, with the bits of the byte spelled out. -/
theorem rawWriteData_bits (b : Nat) :
    QP5515.rawWriteData b
      = ((List.range 8).map fun i => Event.out (BusPin.DB i) false)
          ++ [.out .RW false, .sleep 250, .out .E true, .sleep 250]
          ++ ((List.range 8).map fun i => Event.out (BusPin.DB i) (b.testBit i))
          ++ [.out .E false, .sleep 500] := by
  unfold QP5515.rawWriteData
  congr 2
  apply List.map_congr_left
  intro i hi
  rw [and_one_shiftLeft_ne_zero b i (List.mem_range.mp hi)]

/-- C12. For every byte `b` the trace of `rawWriteData b` is: `DB[0..7]` driven low (switched
to output), `RW` low, 250ns, `E` high, 250ns, `DB[i]` driven to bit `i` of `b` for
`i = 0..7`, `E` low, 500ns. So `E` is high when each data bit is driven, and when `E` falls
(operation 20 of the trace) the level of `DB[i]` is bit `i` of `b`. -/
theorem rawWriteData_cycle (b : Nat) :
    QP5515.rawWriteData b
        = ((List.range 8).map fun i => Event.out (BusPin.DB i) false)
            ++ [.out .RW false, .sleep 250, .out .E true, .sleep 250]
            ++ ((List.range 8).map fun i => Event.out (BusPin.DB i) (b.testBit i))
            ++ [.out .E false, .sleep 500]
      ∧ (∀ i : Fin 8,
          (QP5515.rawWriteData b).get? (12 + i.val) = some (.out (.DB i.val) (b.testBit i.val))
            ∧ levelAfter .E ((QP5515.rawWriteData b).take (12 + i.val)) = some true)
      ∧ (QP5515.rawWriteData b).get? 20 = some (.out .E false)
      ∧ levelAfter .E ((QP5515.rawWriteData b).take 20) = some true
      ∧ levelAfter .RW ((QP5515.rawWriteData b).take 20) = some false
      ∧ (∀ i : Fin 8,
          levelAfter (.DB i.val) ((QP5515.rawWriteData b).take 20) = some (b.testBit i.val)) := by
  refine ⟨rawWriteData_bits b, ?_, ?_, ?_, ?_, ?_⟩
  · intro i
    rw [rawWriteData_bits]
    fin_cases i <;> exact ⟨rfl, rfl⟩
  · rw [rawWriteData_bits]
    rfl
  · rw [rawWriteData_bits]
    rfl
  · rw [rawWriteData_bits]
    rfl
  · intro i
    rw [rawWriteData_bits]
    fin_cases i <;> rfl

/-! ## Claims on `QP5515.Display` -/

theorem ReadBFAC_count_RS_high (db : Nat → Bool) :
    (QP5515.ReadBFAC db).1.count (.out .RS true) = 0 := by
  show (Event.out BusPin.RS false :: (QP5515.rawReadData db).1).count (.out .RS true) = 0
  rw [List.count_cons_of_ne (by decide),
    count_eq_zero_of_pin (.out .RS true) .RS rfl (rawReadData_no_RS db)]

theorem pollTrace_count_RS_high (bus : Nat → Nat → Bool) (s k : Nat) :
    (pollTrace bus s k).count (.out .RS true) = 0 := by
  unfold pollTrace
  induction k with
  | zero => simp [ReadBFAC_count_RS_high]
  | succ k ih =>
    rw [List.range_succ, List.flatMap_append, ← List.append_assoc, List.count_append, ih]
    simp [List.count_cons, ReadBFAC_count_RS_high]

theorem WriteData_count_RS_high (b : Nat) :
    (QP5515.WriteData b).count (.out .RS true) = 1 := by
  show (Event.out BusPin.RS true :: QP5515.rawWriteData b).count (.out .RS true) = 1
  rw [List.count_cons_self,
    count_eq_zero_of_pin (.out .RS true) .RS rfl (rawWriteData_no_RS b)]

theorem displayTrace_count_RS_high (bus : Nat → Nat → Bool) (bs ps : List Nat) (k : Nat)
    (hlen : ps.length = bs.length) :
    (displayTrace bus k bs ps).count (.out .RS true) = bs.length := by
  induction bs generalizing ps k with
  | nil =>
    cases ps <;> simp [displayTrace]
  | cons b bs ih =>
    cases ps with
    | nil => simp at hlen
    | cons p ps =>
      simp only [displayTrace, List.count_append, pollTrace_count_RS_high,
        WriteData_count_RS_high, List.length_cons]
      rw [ih ps _ (by simpa using hlen)]
      omega

/-- A module that is never busy for more than `fuel` polls in a row lets `BusyWait` return
from every poll, at the first poll that shows the busy flag clear. -/
theorem BusyWait_of_live (bus : Nat → Nat → Bool) (fuel : Nat)
    (hlive : ∀ n, ∃ j, j ≤ fuel ∧ (QP5515.ReadBFAC (bus (n + j))).2 &&& 0b10000000 = 0)
    (n : Nat) :
    ∃ k, (∀ j, j < k → (QP5515.ReadBFAC (bus (n + j))).2 &&& 0b10000000 ≠ 0)
      ∧ (QP5515.ReadBFAC (bus (n + k))).2 &&& 0b10000000 = 0
      ∧ QP5515.BusyWait bus fuel n = some (pollTrace bus n k, n + k + 1) := by
  have hex : ∃ j, (QP5515.ReadBFAC (bus (n + j))).2 &&& 0b10000000 = 0 := by
    obtain ⟨j, _, hj⟩ := hlive n
    exact ⟨j, hj⟩
  obtain ⟨j, hjf, hj⟩ := hlive n
  have hle : Nat.find hex ≤ fuel := Nat.le_trans (Nat.find_min' hex hj) hjf
  exact ⟨Nat.find hex, fun i hi => Nat.find_min hex hi, Nat.find_spec hex,
    BusyWait_returns bus n (Nat.find hex) fuel (fun i hi => Nat.find_min hex hi)
      (Nat.find_spec hex) hle⟩

theorem Display_of_live (bus : Nat → Nat → Bool) (fuel : Nat)
    (hlive : ∀ n, ∃ j, j ≤ fuel ∧ (QP5515.ReadBFAC (bus (n + j))).2 &&& 0b10000000 = 0)
    (s : List Char) (k : Nat) :
    ∃ polls : List Nat, polls.length = s.length ∧ busyWaitPolls bus fuel k polls ∧
      QP5515.Display bus fuel s k
        = some (displayTrace bus k (s.map fun c => c.toNat % 256) polls,
            k + polls.sum + s.length) := by
  induction s generalizing k with
  | nil => exact ⟨[], rfl, trivial, rfl⟩
  | cons c cs ih =>
    obtain ⟨p, hbusy, hready, hp⟩ := BusyWait_of_live bus fuel hlive k
    obtain ⟨ps, hlen, hfit, hps⟩ := ih (k + p + 1)
    refine ⟨p :: ps, by simp [hlen], ⟨hbusy, hready, hp, hfit⟩, ?_⟩
    rw [QP5515.Display, hp]
    simp only [hps, List.map_cons, displayTrace, List.sum_cons, List.length_cons,
      Option.some.injEq, Prod.mk.injEq, true_and]
    omega

/-- The polls of consecutive `BusyWait` calls are determined by the module. -/
theorem busyWaitPolls_unique (bus : Nat → Nat → Bool) (fuel : Nat) (ps qs : List Nat) (k : Nat)
    (hlen : ps.length = qs.length)
    (hps : busyWaitPolls bus fuel k ps) (hqs : busyWaitPolls bus fuel k qs) : ps = qs := by
  induction ps generalizing qs k with
  | nil =>
    cases qs with
    | nil => rfl
    | cons q qs => simp at hlen
  | cons p ps ih =>
    cases qs with
    | nil => simp at hlen
    | cons q qs =>
      obtain ⟨hpb, hpr, _, hprest⟩ := hps
      obtain ⟨hqb, hqr, _, hqrest⟩ := hqs
      have hpq : p = q := by
        rcases Nat.lt_trichotomy p q with h | h | h
        · exact absurd hpr (hqb p h)
        · exact h
        · exact absurd hqr (hpb q h)
      subst hpq
      rw [ih qs (k + p + 1) (by simpa using hlen) hprest hqrest]

theorem busyTwice_live (n : Nat) :
    ∃ j, j ≤ 2 ∧ (QP5515.ReadBFAC (busyTwice (n + j))).2 &&& 0b10000000 = 0 := by
  refine ⟨2, Nat.le_refl 2, ?_⟩
  have hlow : busyTwice (n + 2) = fun _ => false := by
    funext i
    simp [busyTwice]
  rw [hlow]
  decide

/-- C13. On a module that is never busy for more than `fuel` polls in a row, `Display`
returns for every text, and its trace is, for each character of the text in order, one
`BusyWait` followed by one `WriteData` of the low 8 bits of the code point. Each `BusyWait`
starts at the read cycle where the previous one stopped, polls while the busy flag is set and
stops at the first poll that shows it clear, so the polls are determined by the module. There
are as many data writes as characters, and for a text of code points below 256 the bytes
written are the code points. -/
theorem Display_writes_each_char (bus : Nat → Nat → Bool) (fuel : Nat)
    (hlive : ∀ n, ∃ j, j ≤ fuel ∧ (QP5515.ReadBFAC (bus (n + j))).2 &&& 0b10000000 = 0)
    (s : List Char) (k : Nat) :
    ∃ polls : List Nat, polls.length = s.length ∧
      busyWaitPolls bus fuel k polls
      ∧ (∀ other : List Nat, other.length = s.length → busyWaitPolls bus fuel k other →
          other = polls)
      ∧ QP5515.Display bus fuel s k
        = some (displayTrace bus k (s.map fun c => c.toNat % 256) polls,
            k + polls.sum + s.length)
      ∧ (displayTrace bus k (s.map fun c => c.toNat % 256) polls).count (.out .RS true)
          = s.length
      ∧ ((∀ c ∈ s, c.toNat < 256) →
          QP5515.Display bus fuel s k
            = some (displayTrace bus k (s.map Char.toNat) polls, k + polls.sum + s.length)) := by
  obtain ⟨polls, hlen, hfit, hdisp⟩ := Display_of_live bus fuel hlive s k
  refine ⟨polls, hlen, hfit, ?_, hdisp, ?_, ?_⟩
  · intro other hother hofit
    exact busyWaitPolls_unique bus fuel other polls k (by rw [hother, hlen]) hofit hfit
  · rw [displayTrace_count_RS_high bus _ polls k (by simpa using hlen)]
    simp
  · intro hsmall
    rw [hdisp]
    have hmap : (s.map fun c => c.toNat % 256) = s.map Char.toNat :=
      List.map_congr_left fun c hc => Nat.mod_eq_of_lt (hsmall c hc)
    rw [hmap]

set_option maxRecDepth 100000 in
/-- C13 on the module that is busy for its first two polls, for the text of the code points
`0x61`, `0xE9`, `0x20AC`: the first `BusyWait` makes two polls after its first, the others
none, and the bytes written are `0x61`, `0xE9`, `0xAC`. -/
theorem Display_writes_each_char_witness :
    (∀ n, ∃ j, j ≤ 2 ∧ (QP5515.ReadBFAC (busyTwice (n + j))).2 &&& 0b10000000 = 0)
      ∧ (∃ polls : List Nat,
          polls.length = [Char.ofNat 0x61, Char.ofNat 0xE9, Char.ofNat 0x20AC].length ∧
          busyWaitPolls busyTwice 2 0 polls
          ∧ (∀ other : List Nat,
              other.length = [Char.ofNat 0x61, Char.ofNat 0xE9, Char.ofNat 0x20AC].length →
              busyWaitPolls busyTwice 2 0 other → other = polls)
          ∧ QP5515.Display busyTwice 2 [Char.ofNat 0x61, Char.ofNat 0xE9, Char.ofNat 0x20AC] 0
            = some (displayTrace busyTwice 0
                ([Char.ofNat 0x61, Char.ofNat 0xE9, Char.ofNat 0x20AC].map
                  fun c => c.toNat % 256) polls,
                0 + polls.sum + [Char.ofNat 0x61, Char.ofNat 0xE9, Char.ofNat 0x20AC].length)
          ∧ (displayTrace busyTwice 0
                ([Char.ofNat 0x61, Char.ofNat 0xE9, Char.ofNat 0x20AC].map
                  fun c => c.toNat % 256) polls).count (.out .RS true)
              = [Char.ofNat 0x61, Char.ofNat 0xE9, Char.ofNat 0x20AC].length
          ∧ ((∀ c ∈ [Char.ofNat 0x61, Char.ofNat 0xE9, Char.ofNat 0x20AC], c.toNat < 256) →
              QP5515.Display busyTwice 2 [Char.ofNat 0x61, Char.ofNat 0xE9, Char.ofNat 0x20AC] 0
                = some (displayTrace busyTwice 0
                    ([Char.ofNat 0x61, Char.ofNat 0xE9, Char.ofNat 0x20AC].map Char.toNat) polls,
                    0 + polls.sum
                      + [Char.ofNat 0x61, Char.ofNat 0xE9, Char.ofNat 0x20AC].length)))
      ∧ busyWaitPolls busyTwice 2 0 [2, 0, 0]
      ∧ QP5515.Display busyTwice 2 [Char.ofNat 0x61, Char.ofNat 0xE9, Char.ofNat 0x20AC] 0
          = some (displayTrace busyTwice 0 [0x61, 0xE9, 0xAC] [2, 0, 0], 5) :=
  ⟨busyTwice_live,
    Display_writes_each_char busyTwice 2 busyTwice_live
      [Char.ofNat 0x61, Char.ofNat 0xE9, Char.ofNat 0x20AC] 0,
    ⟨by decide, by decide, by decide, ⟨by decide, by decide, by decide,
      ⟨by decide, by decide, by decide, trivial⟩⟩⟩,
    by decide⟩

/-! ## Further claims on `RS257543.toBits` -/

theorem RuneMap.at_of_lookup_none {m : RuneMap} {c : Char} (h : m.lookup c = none) :
    m.at c = 0 := by
  simp [RuneMap.at, h]

theorem RuneMap.at_of_lookup_some {m : RuneMap} {c : Char} {v : Nat} (h : m.lookup c = some v) :
    m.at c = v % 256 := by
  simp [RuneMap.at, h]

/-- Nothing is pending after a text that does not end in `.`. -/
theorem accFrom_flag_false (runes : RuneMap) (s : List Char) (hs : s.getLast? ≠ some '.') :
    (accFrom runes (0, false) s).2 = false := by
  rw [accFrom_flag]
  cases hl : s.getLast? with
  | none => rfl
  | some d =>
    have hd : d ≠ '.' := fun h => hs (by rw [hl, h])
    simp [hd]

theorem toBits_single (r : RS257543) (c : Char) (hc : c ≠ '.') :
    r.toBits [c] = r.runes.at c := by
  have hlt := r.runes.at_lt c
  rw [toBits_eq_acc_mod]
  simp only [accFrom, List.foldl_cons, List.foldl_nil, accStep, if_neg hc]
  simp only [Bool.false_eq_true, if_false, Nat.zero_mul, Nat.zero_add, Nat.add_zero]
  exact Nat.mod_eq_of_lt (by omega)

theorem toBits_lt (r : RS257543) (s : List Char) : r.toBits s < 2 ^ 32 := by
  rw [toBits_eq_acc_mod]
  exact Nat.mod_lt _ (by norm_num)

/-- C14. An encoding miss never fails and yields a blank digit: for every driver and every
character `c` other than `.` that is absent from the active table, `toBits` of the text `c`
is 0, and after every text `s` not ending in `.` the character still takes one digit slot:
`toBits (s ++ c)` is `toBits s * 256` modulo `2 ^ 32`. -/
theorem toBits_unmapped (r : RS257543) (c : Char) (hc : c ≠ '.')
    (habs : r.runes.lookup c = none) :
    r.toBits [c] = 0
      ∧ ∀ s : List Char, s.getLast? ≠ some '.' →
          r.toBits (s ++ [c]) = (r.toBits s * 256) % 2 ^ 32 := by
  have hat : r.runes.at c = 0 := RuneMap.at_of_lookup_none habs
  refine ⟨by rw [toBits_single r c hc, hat], ?_⟩
  intro s hs
  have hflag := accFrom_flag_false r.runes s hs
  rw [toBits_eq_acc_mod, toBits_eq_acc_mod, accFrom_append]
  generalize accFrom r.runes (0, false) s = st at hflag
  obtain ⟨x, rp⟩ := st
  simp only at hflag
  subst hflag
  simp only [accFrom, List.foldl_cons, List.foldl_nil, accStep, if_neg hc, hat]
  simp only [Bool.false_eq_true, if_false, Nat.add_zero]
  omega

/-- C14 with the default table, for the character `x`, after the text `12`. -/
theorem toBits_unmapped_witness :
    'x' ≠ '.' ∧ (bare none).runes.lookup 'x' = none
      ∧ ((bare none).toBits ['x'] = 0
        ∧ ∀ s : List Char, s.getLast? ≠ some '.' →
            (bare none).toBits (s ++ ['x']) = ((bare none).toBits s * 256) % 2 ^ 32) :=
  ⟨by decide, by decide, toBits_unmapped (bare none) 'x' (by decide) (by decide)⟩

/-- C15. The table of the instance takes precedence over the default one: with `RuneMap` nil
`toBits` reads `defaultRuneMap`, and with `RuneMap` non-nil, even empty, it reads `RuneMap`
only. So under a non-nil `RuneMap` a character absent from it encodes as 0, also when the
default table has it, and a character present in it encodes as its pattern there. -/
theorem RuneMap_precedence (DEG COL CUR : Bool) (m : RuneMap) (c : Char) (hc : c ≠ '.') :
    (∀ s : List Char,
        ({ DEG := DEG, COL := COL, CUR := CUR, RuneMap := none } : RS257543).toBits s
          = (s.foldl (RS257543.toBitsStep defaultRuneMap) (0, false)).1)
      ∧ (∀ s : List Char,
          ({ DEG := DEG, COL := COL, CUR := CUR, RuneMap := some m } : RS257543).toBits s
            = (s.foldl (RS257543.toBitsStep m) (0, false)).1)
      ∧ (m.lookup c = none →
          ({ DEG := DEG, COL := COL, CUR := CUR, RuneMap := some m } : RS257543).toBits [c] = 0)
      ∧ (∀ v : Nat, m.lookup c = some v →
          ({ DEG := DEG, COL := COL, CUR := CUR, RuneMap := some m } : RS257543).toBits [c]
            = v % 256)
      ∧ ({ DEG := DEG, COL := COL, CUR := CUR, RuneMap := none } : RS257543).toBits [c]
          = defaultRuneMap.at c := by
  refine ⟨fun _ => rfl, fun _ => rfl, ?_, ?_, ?_⟩
  · intro h
    rw [toBits_single _ c hc]
    exact RuneMap.at_of_lookup_none h
  · intro v h
    rw [toBits_single _ c hc]
    exact RuneMap.at_of_lookup_some h
  · rw [toBits_single _ c hc]
    rfl

/-- C15 for the character `8`, which the default table has, under a table without it. -/
theorem RuneMap_precedence_witness :
    '8' ≠ '.'
      ∧ ([('1', 0b00000110)] : RuneMap).lookup '8' = none
      ∧ defaultRuneMap.lookup '8' = some 0b11111110
      ∧ (bare (some [('1', 0b00000110)])).toBits ['8'] = 0
      ∧ (bare (some [])).toBits ['8'] = 0
      ∧ (bare (some [('1', 0b00000110)])).toBits ['1'] = 0b00000110
      ∧ (bare none).toBits ['8'] = 0b11111110 :=
  ⟨by decide, by decide, by decide,
    (RuneMap_precedence false false false [('1', 0b00000110)] '8' (by decide)).2.2.1 (by decide),
    by decide, by decide, by decide⟩

/-- C16. More than 4 characters are truncated silently to the last 4: for every driver, every
text `p` not ending in `.` and every text `t` with exactly 4 characters other than `.`,
`toBits (p ++ t) = toBits t`. For every text the result is the unbounded accumulation reduced
modulo `2 ^ 32`: `toBits` is total and its value a `uint32`. -/
theorem toBits_keeps_last_four (r : RS257543) (p t : List Char)
    (hp : p.getLast? ≠ some '.') (ht : slotCount t = 4) :
    r.toBits (p ++ t) = r.toBits t
      ∧ ∀ s : List Char,
          r.toBits s = (accFrom r.runes (0, false) s).1 % 2 ^ 32 ∧ r.toBits s < 2 ^ 32 := by
  refine ⟨?_, fun s => ⟨toBits_eq_acc_mod r s, toBits_lt r s⟩⟩
  have hflag := accFrom_flag_false r.runes p hp
  rw [toBits_eq_acc_mod, toBits_eq_acc_mod, accFrom_append]
  generalize accFrom r.runes (0, false) p = st at hflag
  obtain ⟨x, rp⟩ := st
  simp only at hflag
  subst hflag
  rw [accFrom_linear, ht]
  simp only
  have h256 : (256 : Nat) ^ 4 = 2 ^ 32 := by norm_num
  rw [h256]
  generalize (accFrom r.runes (0, false) t).1 = y
  omega

/-- C16 for the text `98` followed by `.1234`, with the default table. -/
theorem toBits_keeps_last_four_witness :
    ['9', '8'].getLast? ≠ some '.' ∧ slotCount ['.', '1', '2', '3', '4'] = 4
      ∧ ((bare none).toBits (['9', '8'] ++ ['.', '1', '2', '3', '4'])
            = (bare none).toBits ['.', '1', '2', '3', '4']
          ∧ ∀ s : List Char,
              (bare none).toBits s = (accFrom (bare none).runes (0, false) s).1 % 2 ^ 32
                ∧ (bare none).toBits s < 2 ^ 32) :=
  ⟨by decide, by decide,
    toBits_keeps_last_four (bare none) ['9', '8'] ['.', '1', '2', '3', '4']
      (by decide) (by decide)⟩

/-- C18, as the claim states it, fails: with the default table `toBits ".1"` is not
`toBits "1"`, it is one more. -/
theorem toBits_leading_dot_not_noop :
    (bare none).toBits ['.', '1'] ≠ (bare none).toBits ['1']
      ∧ (bare none).toBits (['.'] ++ ['1']) = (bare none).toBits ['1'] + 1 := by
  decide

/-- C18, amended. A leading `.` takes no digit slot and sets the decimal-point bit of the
first character of the text: `toBits ".1"` is `toBits "1" + 1`; for every text `t` that is
empty or starts with `.`, `toBits ("." ++ t) = toBits t`, and for every text `c :: rest` with
`c` other than `.`, `toBits ("." ++ c :: rest)` is `toBits (c :: rest)` plus 1 in the byte of
`c`, modulo `2 ^ 32`. -/
theorem toBits_leading_dot (r : RS257543) :
    (bare none).toBits ['.', '1'] = (bare none).toBits ['1'] + 1
      ∧ (∀ t : List Char, t = [] ∨ t.head? = some '.' → r.toBits ('.' :: t) = r.toBits t)
      ∧ ∀ (c : Char) (rest : List Char), c ≠ '.' →
          r.toBits ('.' :: c :: rest)
            = (r.toBits (c :: rest) + 256 ^ slotCount rest) % 2 ^ 32 := by
  refine ⟨by decide, ?_, ?_⟩
  · intro t ht
    rcases ht with rfl | ht
    · rfl
    · cases t with
      | nil => simp at ht
      | cons d ds =>
        simp only [List.head?_cons, Option.some.injEq] at ht
        subst ht
        simp [RS257543.toBits, RS257543.toBitsStep]
  · intro c rest hc
    rw [toBits_eq_acc_mod, toBits_eq_acc_mod]
    simp only [accFrom_cons, accStep, if_true, if_neg hc]
    rw [accFrom_linear r.runes rest (0 * 256 + r.runes.at c + _) false,
      accFrom_linear r.runes rest (0 * 256 + r.runes.at c + _) false]
    simp only [Bool.false_eq_true, if_false, if_true]
    generalize (accFrom r.runes (0, false) rest).1 = y
    generalize 256 ^ slotCount rest = w
    have hexp : (0 * 256 + r.runes.at c + 1) * w + y = (0 * 256 + r.runes.at c + 0) * w + y + w := by
      ring
    rw [hexp]
    generalize (0 * 256 + r.runes.at c + 0) * w + y = z
    omega

/-- C18, amended, for the text `1.2` after a leading `.`. -/
theorem toBits_leading_dot_witness :
    ([] = ([] : List Char) ∨ ([] : List Char).head? = some '.')
      ∧ (bare none).toBits ('.' :: []) = (bare none).toBits []
      ∧ '1' ≠ '.'
      ∧ (bare none).toBits ('.' :: '1' :: ['.', '2'])
          = ((bare none).toBits ('1' :: ['.', '2']) + 256 ^ slotCount ['.', '2']) % 2 ^ 32 :=
  ⟨Or.inl rfl, (toBits_leading_dot (bare none)).2.1 [] (Or.inl rfl), by decide,
    (toBits_leading_dot (bare none)).2.2 '1' ['.', '2'] (by decide)⟩

theorem or_one_of_even (y : Nat) (hy : y % 2 = 0) : y ||| 1 = y + 1 := by
  have h := Nat.mul_add_lt_is_or (show 1 < 2 ^ 1 by norm_num) (y / 2)
  have hy2 : 2 ^ 1 * (y / 2) = y := by omega
  rw [hy2] at h
  exact h.symm

/-- C20. Every pattern of the default table has bit 0 clear, so with the default table the
decimal-point increment of `toBits` never carries: in one loop iteration on a character other
than `.`, the accumulator with the pending flag set is the one with the flag clear plus 1,
which is also that one OR 1, and all its bits above bit 0 are the same. With a table holding
the pattern `0xFF` the increment does carry: for `1.8` under the table `1 -> 0x18`,
`8 -> 0xFF`, the byte of `8` is 0 and the byte of `1` is `0x19`, not its pattern `0x18`. -/
theorem dp_increment_carry (x : Nat) (c : Char) (hc : c ≠ '.') :
    (∀ p ∈ defaultRuneMap, p.2 % 2 = 0)
      ∧ (∀ d : Char, defaultRuneMap.at d % 2 = 0)
      ∧ (RS257543.toBitsStep defaultRuneMap (x, false) c).1 % 2 = 0
      ∧ (RS257543.toBitsStep defaultRuneMap (x, true) c).1
          = (RS257543.toBitsStep defaultRuneMap (x, false) c).1 + 1
      ∧ (RS257543.toBitsStep defaultRuneMap (x, true) c).1
          = (RS257543.toBitsStep defaultRuneMap (x, false) c).1 ||| 1
      ∧ (RS257543.toBitsStep defaultRuneMap (x, true) c).1 / 2
          = (RS257543.toBitsStep defaultRuneMap (x, false) c).1 / 2
      ∧ (bare (some [('1', 0x18), ('8', 0xFF)])).toBits ['1', '.', '8'] = 0x1900
      ∧ (bare (some [('1', 0x18), ('8', 0xFF)])).toBits ['1', '.', '8'] % 256 = 0
      ∧ (bare (some [('1', 0x18), ('8', 0xFF)])).toBits ['1', '.', '8'] / 256 % 256 = 0x19
      ∧ (bare (some [('1', 0x18), ('8', 0xFF)])).toBits ['1', '8'] / 256 % 256 = 0x18
      ∧ (bare (some [('1', 0x18), ('8', 0xFF)])).runes.at '1' = 0x18 := by
  have heven := defaultRuneMap_even c
  have hlt := defaultRuneMap.at_lt c
  have hclear : (RS257543.toBitsStep defaultRuneMap (x, false) c).1
      = ((x <<< 8) % 2 ^ 32 + defaultRuneMap.at c) % 2 ^ 32 := by
    simp [RS257543.toBitsStep, hc]
  have hset : (RS257543.toBitsStep defaultRuneMap (x, true) c).1
      = (((x <<< 8) % 2 ^ 32 + defaultRuneMap.at c) % 2 ^ 32 + 1) % 2 ^ 32 := by
    simp [RS257543.toBitsStep, hc]
  have hy : (((x <<< 8) % 2 ^ 32 + defaultRuneMap.at c) % 2 ^ 32) % 2 = 0 := by
    rw [Nat.shiftLeft_eq]
    omega
  have hbound : ((x <<< 8) % 2 ^ 32 + defaultRuneMap.at c) % 2 ^ 32 < 2 ^ 32 :=
    Nat.mod_lt _ (by norm_num)
  rw [hclear, hset]
  generalize ((x <<< 8) % 2 ^ 32 + defaultRuneMap.at c) % 2 ^ 32 = y at hy hbound
  have hstep : (y + 1) % 2 ^ 32 = y + 1 := Nat.mod_eq_of_lt (by omega)
  rw [hstep]
  exact ⟨by decide, defaultRuneMap_even, hy, rfl, (or_one_of_even y hy).symm, by omega,
    by decide, by decide, by decide, by decide, by decide⟩

/-- C20 for the character `8` on the accumulator `0x18`, as in the text `1.8`. -/
theorem dp_increment_carry_witness :
    '8' ≠ '.'
      ∧ (RS257543.toBitsStep defaultRuneMap (0x18, true) '8').1
          = (RS257543.toBitsStep defaultRuneMap (0x18, false) '8').1 ||| 1
      ∧ (RS257543.toBitsStep defaultRuneMap (0x18, true) '8').1 = 0x18FF
      ∧ (RS257543.toBitsStep defaultRuneMap (0x18, false) '8').1 = 0x18FE :=
  ⟨by decide, (dp_increment_carry 0x18 '8' (by decide)).2.2.2.2.1, by decide, by decide⟩

/-! ## Claims on `RS257543.Clear` and `RS257543.CycleDigits` -/

/-- C17. For every combination of present and absent optional pins, `Clear` is `RawDisplay 0`
followed by driving low the present pins among `CUR`, `COL`, `DEG`, in that order, and
nothing else: its pin operations are `DIN` low, `CLK` high, `CLK` low, 32 times, then `LD`
high, `LD` low, then one operation per present optional pin. An absent pin gets none. -/
theorem Clear_trace (r : RS257543) :
    r.Clear
        = r.RawDisplay 0
          ++ (([(r.CUR, SegPin.CUR), (r.COL, SegPin.COL), (r.DEG, SegPin.DEG)].filter
                Prod.fst).map fun p => Event.out p.2 false)
      ∧ pinOps r.Clear
        = ((List.range 32).flatMap fun _ =>
              [Event.out SegPin.DIN false, .out .CLK true, .out .CLK false])
            ++ [.out .LD true, .out .LD false]
            ++ (([(r.CUR, SegPin.CUR), (r.COL, SegPin.COL), (r.DEG, SegPin.DEG)].filter
                  Prod.fst).map fun p => Event.out p.2 false)
      ∧ r.Clear.count (.out .CUR false) = (if r.CUR then 1 else 0)
      ∧ r.Clear.count (.out .COL false) = (if r.COL then 1 else 0)
      ∧ r.Clear.count (.out .DEG false) = (if r.DEG then 1 else 0)
      ∧ r.Clear.count (.out .CUR true) + r.Clear.count (.out .COL true)
          + r.Clear.count (.out .DEG true) = 0 := by
  have hraw : pinOps (r.RawDisplay 0)
      = ((List.range 32).flatMap fun _ =>
            [Event.out SegPin.DIN false, .out .CLK true, .out .CLK false])
          ++ [.out .LD true, .out .LD false] := by
    rw [RS257543.RawDisplay, pinOps_append, pinOps_rawDisplayLoop]
    simp only [Nat.zero_testBit]
    rfl
  have hnone : ∀ e : Event SegPin,
      e.pin = some .CUR ∨ e.pin = some .COL ∨ e.pin = some .DEG →
        (r.RawDisplay 0).count e = 0 := by
    intro e he
    rw [List.count_eq_zero]
    intro hmem
    have hin : e ∈ pinOps (r.RawDisplay 0) := by
      unfold pinOps
      rw [List.mem_filter]
      refine ⟨hmem, ?_⟩
      cases e <;> simp [Event.pin] at he ⊢
    rw [hraw] at hin
    simp only [List.mem_append, List.mem_flatMap, List.mem_range, List.mem_cons,
      List.mem_singleton, List.not_mem_nil, or_false] at hin
    rcases hin with ⟨_, _, h | h | h⟩ | h | h <;> subst h <;> simp [Event.pin] at he
  have hclear : r.Clear
      = r.RawDisplay 0
        ++ (([(r.CUR, SegPin.CUR), (r.COL, SegPin.COL), (r.DEG, SegPin.DEG)].filter
              Prod.fst).map fun p => Event.out p.2 false) := by
    obtain ⟨d, c, u, m⟩ := r
    cases d <;> cases c <;> cases u <;> simp [RS257543.Clear]
  refine ⟨hclear, ?_, ?_, ?_, ?_, ?_⟩
  · rw [hclear, pinOps_append, hraw]
    congr 1
    obtain ⟨d, c, u, m⟩ := r
    cases d <;> cases c <;> cases u <;> rfl
  · rw [hclear, List.count_append, hnone (.out .CUR false) (Or.inl rfl)]
    obtain ⟨d, c, u, m⟩ := r
    cases d <;> cases c <;> cases u <;> rfl
  · rw [hclear, List.count_append, hnone (.out .COL false) (Or.inr (Or.inl rfl))]
    obtain ⟨d, c, u, m⟩ := r
    cases d <;> cases c <;> cases u <;> rfl
  · rw [hclear, List.count_append, hnone (.out .DEG false) (Or.inr (Or.inr rfl))]
    obtain ⟨d, c, u, m⟩ := r
    cases d <;> cases c <;> cases u <;> rfl
  · rw [hclear, List.count_append, List.count_append, List.count_append,
      hnone (.out .CUR true) (Or.inl rfl), hnone (.out .COL true) (Or.inr (Or.inl rfl)),
      hnone (.out .DEG true) (Or.inr (Or.inr rfl))]
    obtain ⟨d, c, u, m⟩ := r
    cases d <;> cases c <;> cases u <;> rfl

end LCD
